import Mathlib

/-!
Verification of the typing-bird idle-detection and message-dispatch engine
(`cmd/typing-bird/main.go`). Pure cores of the Go functions are embedded as
executable Lean definitions; messages are modelled as lists of characters
(Go iterates runes), pane captures as lists of bytes (naturals), and the
effectful tmux calls as explicit inputs to the pure decision logic.
-/

namespace TypingBird

/-- One dispatch action (Go struct `sendAction`): a literal text chunk
(`literal = true`) or a named key press. -/
structure sendAction where
  value : List Char
  literal : Bool
deriving DecidableEq, Repr

/-- Embeds the closure `flushLiteral` inside `messageSendActions`: append the
pending literal chunk as one action when it is non-empty. -/
def flushLiteral (actions : List sendAction) (current : List Char) : List sendAction :=
  if current = [] then actions else actions ++ [⟨current, true⟩]

/-- Loop state of `messageSendActions`: actions built so far, pending literal
chunk, and the previous-was-carriage-return flag. -/
structure msaState where
  actions : List sendAction
  current : List Char
  prevWasCR : Bool
deriving Repr

/-- One iteration of the rune loop in `messageSendActions`. -/
def msaStep (enter : List Char) (s : msaState) (r : Char) : msaState :=
  if r = '\r' then
    ⟨flushLiteral s.actions s.current ++ [⟨enter, false⟩], [], true⟩
  else if r = '\n' then
    if s.prevWasCR then ⟨s.actions, s.current, false⟩
    else ⟨flushLiteral s.actions s.current ++ [⟨enter, false⟩], [], false⟩
  else ⟨s.actions, s.current ++ [r], false⟩

/-- Runs the rune loop from a given state, then the final flush and the
trailing activation-key append (tail of Go `messageSendActions`). -/
def runMsa (enter : List Char) (message : List Char) (s : msaState) : List sendAction :=
  let t := message.foldl (msaStep enter) s
  flushLiteral t.actions t.current ++ [⟨enter, false⟩]

/-- Embeds Go `messageSendActions(message, enter)`. -/
def messageSendActions (message enter : List Char) : List sendAction :=
  runMsa enter message ⟨[], [], false⟩

/-- A character is a line terminator when it is carriage-return or line-feed. -/
def isLineTerm (c : Char) : Bool := c = '\r' || c = '\n'

theorem length_dropWhile_le (p : Char → Bool) (l : List Char) :
    (l.dropWhile p).length ≤ l.length := by
  induction l with
  | nil => simp [List.dropWhile]
  | cons a l ih =>
    by_cases h : p a
    · simp only [List.dropWhile, h]
      exact Nat.le_succ_of_le ih
    · simp [List.dropWhile, h]

/-- Modelled from the spec: reference encoder following the words of the
Message Encoder contract. A maximal run of non-terminator characters becomes
one literal action; a carriage-return becomes one activation-key action and
swallows an immediately following line-feed (CRLF collapses to one action);
a lone line-feed becomes one activation-key action. The trailing
activation-key action is appended separately by the caller. -/
def specEncode (enter : List Char) : List Char → List sendAction
  | [] => []
  | c :: rest =>
    if c = '\r' then
      ⟨enter, false⟩ :: specEncode enter (if rest.head? = some '\n' then rest.tail else rest)
    else if c = '\n' then
      ⟨enter, false⟩ :: specEncode enter rest
    else
      ⟨c :: rest.takeWhile (fun x => !isLineTerm x), true⟩ ::
        specEncode enter (rest.dropWhile (fun x => !isLineTerm x))
termination_by l => l.length
decreasing_by
  · simp only [List.length_cons]
    split
    · cases rest with
      | nil => simp
      | cons d r => simp [Nat.lt_succ_iff, Nat.le_succ_of_le]
    · simp
  · simp
  · simp only [List.length_cons]
    exact Nat.lt_succ_of_le (length_dropWhile_le _ rest)

/-- Reference encoding with a pending literal chunk carried in from the loop
state: the pending chunk merges with a leading non-terminator run. -/
def pendEncode (enter : List Char) (pending : List Char) : List Char → List sendAction
  | [] => flushLiteral [] pending
  | c :: rest =>
    if isLineTerm c then flushLiteral [] pending ++ specEncode enter (c :: rest)
    else
      ⟨pending ++ c :: rest.takeWhile (fun x => !isLineTerm x), true⟩ ::
        specEncode enter (rest.dropWhile (fun x => !isLineTerm x))

theorem flushLiteral_append (a₁ a₂ : List sendAction) (c : List Char) :
    flushLiteral (a₁ ++ a₂) c = a₁ ++ flushLiteral a₂ c := by
  unfold flushLiteral
  split <;> simp

theorem runMsa_cons (enter : List Char) (x : Char) (msg : List Char) (s : msaState) :
    runMsa enter (x :: msg) s = runMsa enter msg (msaStep enter s x) := rfl

theorem runMsa_actions (enter : List Char) (msg : List Char) :
    ∀ (a₁ a₂ : List sendAction) (c : List Char) (p : Bool),
    runMsa enter msg ⟨a₁ ++ a₂, c, p⟩ = a₁ ++ runMsa enter msg ⟨a₂, c, p⟩ := by
  induction msg with
  | nil =>
    intro a₁ a₂ c p
    simp [runMsa, flushLiteral_append]
  | cons x msg ih =>
    intro a₁ a₂ c p
    rw [runMsa_cons, runMsa_cons]
    by_cases hr : x = '\r'
    · simp only [msaStep, hr, if_pos rfl, flushLiteral_append, List.append_assoc]
      exact ih a₁ _ [] true
    · by_cases hn : x = '\n'
      · by_cases hp : p
        · simp only [msaStep, hr, hn, if_neg hr, if_pos rfl, hp, if_pos rfl]
          exact ih a₁ a₂ c false
        · simp only [msaStep, hr, hn, if_neg hr, if_pos rfl, Bool.not_eq_true] at *
          simp only [hp, Bool.false_eq_true, if_neg (by simp : ¬False),
            flushLiteral_append, List.append_assoc]
          exact ih a₁ _ [] false
      · simp only [msaStep, if_neg hr, if_neg hn]
        exact ih a₁ a₂ _ false

theorem runMsa_actions' (enter : List Char) (msg : List Char) (a : List sendAction)
    (c : List Char) (p : Bool) :
    runMsa enter msg ⟨a, c, p⟩ = a ++ runMsa enter msg ⟨[], c, p⟩ := by
  have h := runMsa_actions enter msg a [] c p
  simpa using h

theorem runMsa_prevCR (enter : List Char) (msg : List Char) (a : List sendAction)
    (c : List Char) :
    runMsa enter msg ⟨a, c, true⟩ =
      runMsa enter (if msg.head? = some '\n' then msg.tail else msg) ⟨a, c, false⟩ := by
  cases msg with
  | nil => simp [runMsa]
  | cons x rest =>
    by_cases hn : x = '\n'
    · subst hn
      rw [if_pos (by simp), List.tail_cons, runMsa_cons]
      simp [msaStep]
    · rw [if_neg (by simp [hn]), runMsa_cons, runMsa_cons]
      by_cases hr : x = '\r'
      · subst hr
        simp [msaStep]
      · simp [msaStep, hr, hn]

theorem pendEncode_nil (enter : List Char) (m : List Char) :
    pendEncode enter [] m = specEncode enter m := by
  cases m with
  | nil => simp [pendEncode, specEncode, flushLiteral]
  | cons c rest =>
    by_cases hr : c = '\r'
    · subst hr
      rw [pendEncode, specEncode]
      simp [isLineTerm, flushLiteral]
    · by_cases hn : c = '\n'
      · subst hn
        rw [pendEncode, specEncode]
        simp [isLineTerm, flushLiteral]
      · rw [pendEncode, specEncode]
        simp [isLineTerm, hr, hn]

theorem pendEncode_snoc (enter : List Char) (cur : List Char) (c : Char)
    (rest : List Char) :
    pendEncode enter (cur ++ [c]) rest =
      ⟨cur ++ c :: rest.takeWhile (fun x => !isLineTerm x), true⟩ ::
        specEncode enter (rest.dropWhile (fun x => !isLineTerm x)) := by
  cases rest with
  | nil =>
    simp [pendEncode, flushLiteral, specEncode]
  | cons d r =>
    by_cases hd : isLineTerm d
    · rw [pendEncode]
      simp only [hd, if_pos rfl, flushLiteral]
      rw [List.takeWhile_cons, List.dropWhile_cons]
      simp [hd]
    · rw [pendEncode]
      simp only [hd, Bool.false_eq_true, if_neg (by simp [hd] : ¬(isLineTerm d = true))]
      rw [List.takeWhile_cons, List.dropWhile_cons]
      simp [hd]

theorem runMsa_false_spec (enter : List Char) :
    ∀ (n : Nat) (msg cur : List Char), msg.length ≤ n →
    runMsa enter msg ⟨[], cur, false⟩ = pendEncode enter cur msg ++ [⟨enter, false⟩] := by
  intro n
  induction n with
  | zero =>
    intro msg cur hlen
    have : msg = [] := List.length_eq_zero.mp (Nat.le_zero.mp hlen)
    subst this
    simp [runMsa, pendEncode]
  | succ n ih =>
    intro msg cur hlen
    cases msg with
    | nil => simp [runMsa, pendEncode]
    | cons x rest =>
      simp only [List.length_cons, Nat.succ_le_succ_iff] at hlen
      by_cases hr : x = '\r'
      · subst hr
        rw [runMsa_cons]
        have hstep : msaStep enter ⟨[], cur, false⟩ '\r' =
            ⟨flushLiteral [] cur ++ [⟨enter, false⟩], [], true⟩ := by simp [msaStep]
        rw [hstep, runMsa_actions', runMsa_prevCR]
        have hdrop : (if rest.head? = some '\n' then rest.tail else rest).length ≤ n := by
          split
          · exact le_trans (by cases rest <;> simp) hlen
          · exact hlen
        rw [ih _ [] hdrop, pendEncode_nil]
        rw [pendEncode, specEncode]
        simp [isLineTerm]
      · by_cases hn : x = '\n'
        · subst hn
          rw [runMsa_cons]
          have hstep : msaStep enter ⟨[], cur, false⟩ '\n' =
              ⟨flushLiteral [] cur ++ [⟨enter, false⟩], [], false⟩ := by simp [msaStep]
          rw [hstep, runMsa_actions', ih _ [] hlen, pendEncode_nil]
          rw [pendEncode, specEncode]
          simp [isLineTerm, hr]
        · rw [runMsa_cons]
          have hstep : msaStep enter ⟨[], cur, false⟩ x =
              ⟨[], cur ++ [x], false⟩ := by simp [msaStep, hr, hn]
          rw [hstep, ih _ (cur ++ [x]) hlen]
          have hc : isLineTerm x = false := by simp [isLineTerm, hr, hn]
          rw [pendEncode_snoc enter cur x rest]
          rw [pendEncode]
          simp [hc]

/-- The Go encoder equals the spec-worded reference encoder followed by the
single trailing activation-key action. -/
theorem messageSendActions_eq_specEncode (message enter : List Char) :
    messageSendActions message enter = specEncode enter message ++ [⟨enter, false⟩] := by
  rw [messageSendActions, runMsa_false_spec enter message.length message [] le_rfl,
    pendEncode_nil]

/-- C2: for every input string and every activation-key name, the encoder
`messageSendActions` produces exactly the action sequence of the spec-worded
reference encoder (each maximal run of non-CR/LF characters becomes one
literal action, each CR one activation-key action swallowing an immediately
following LF, each lone LF one activation-key action, consecutive
terminators give consecutive key actions with no literal between them)
followed by the single trailing activation key; concrete CRLF-collapse and
blank-line instances included. -/
theorem claim_C2_encoder_structure (message enter : List Char) :
    messageSendActions message enter = specEncode enter message ++ [⟨enter, false⟩]
    ∧ messageSendActions ['a', '\r', '\n', 'b'] ['E'] =
        [⟨['a'], true⟩, ⟨['E'], false⟩, ⟨['b'], true⟩, ⟨['E'], false⟩]
    ∧ messageSendActions ['a', '\n', '\n', 'b'] ['E'] =
        [⟨['a'], true⟩, ⟨['E'], false⟩, ⟨['E'], false⟩, ⟨['b'], true⟩, ⟨['E'], false⟩] :=
  ⟨messageSendActions_eq_specEncode message enter, by decide, by decide⟩

/-- C3: the encoder output always ends with exactly one activation-key action
appended after the whole message is processed (the body is exactly the
reference encoding of the message, terminator-final or not), and the empty
message encodes to the one-element key-press sequence. -/
theorem claim_C3_final_enter (message enter : List Char) :
    (∃ body, messageSendActions message enter = body ++ [⟨enter, false⟩]
      ∧ body = specEncode enter message)
    ∧ messageSendActions [] enter = [⟨enter, false⟩] := by
  refine ⟨⟨specEncode enter message, messageSendActions_eq_specEncode message enter, rfl⟩, ?_⟩
  simp [messageSendActions, runMsa, flushLiteral]

/-- Embeds Go `abs(x int) int`. -/
def goAbs (x : Int) : Int := if x < 0 then -x else x

/-- Embeds Go `byteDiffCount(a, b []byte) int`: count differing byte positions
over the common-length index range, then add the length mismatch. -/
def byteDiffCount (a b : List Nat) : Nat :=
  let minLen := Nat.min a.length b.length
  let diffs := ((List.range minLen).filter (fun i => decide (a.getD i 0 ≠ b.getD i 0))).length
  diffs + (goAbs ((a.length : Int) - (b.length : Int))).toNat

/-- Embeds the post-capture analysis of Go `idleSamplesTarget` (the loop over
`i = 1 .. samples-1`): the all-equal flag against the base sample, the base
length, and the two diagnostic difference arrays (index 0 left at zero). -/
def idleAnalyze (caps : List (List Nat)) : Bool × Nat × List Nat × List Nat :=
  let base := caps.getD 0 []
  let n := caps.length
  let allEqual := (List.range (n - 1)).all (fun j => decide (caps.getD (j + 1) [] = base))
  let diffsFromBase :=
    (List.range n).map (fun i => if i = 0 then 0 else byteDiffCount base (caps.getD i []))
  let diffsFromPrev :=
    (List.range n).map
      (fun i => if i = 0 then 0 else byteDiffCount (caps.getD (i - 1) []) (caps.getD i []))
  (allEqual, base.length, diffsFromBase, diffsFromPrev)

/-- Embeds Go `idleSamplesTarget` on the pure level: the `samples >= 1` guard,
then one capture per sample index (the capture oracle stands for
`tmuxCaptureTarget`; error-free runs are modelled, capture failures are
handled in the `waitForTargetIdle` model), then the analysis loop. -/
def idleSamplesTarget (samples : Nat) (captures : Nat → List Nat) :
    Except String (Bool × Nat × List Nat × List Nat) :=
  if samples < 1 then .error "samples must be >= 1"
  else
    let caps := (List.range samples).map captures
    .ok (idleAnalyze caps)

theorem getD_range_map {α : Type} (f : Nat → α) (n i : Nat) (d : α) (h : i < n) :
    ((List.range n).map f).getD i d = f i := by
  rw [List.getD_eq_getElem?_getD]
  simp [List.getElem?_map, List.getElem?_range, h]

theorem idleSamplesTarget_ok (samples : Nat) (captures : Nat → List Nat) (h : 1 ≤ samples) :
    idleSamplesTarget samples captures =
      .ok (idleAnalyze ((List.range samples).map captures)) := by
  rw [idleSamplesTarget, if_neg (by omega)]

theorem idleAnalyze_baseLen (samples : Nat) (captures : Nat → List Nat) (h : 1 ≤ samples) :
    (idleAnalyze ((List.range samples).map captures)).2.1 = (captures 0).length := by
  simp only [idleAnalyze]
  rw [getD_range_map _ _ _ _ (by omega : 0 < samples)]

theorem idleAnalyze_allEq (samples : Nat) (captures : Nat → List Nat) (h : 1 ≤ samples) :
    ((idleAnalyze ((List.range samples).map captures)).1 = true
      ↔ ∀ i < samples, captures i = captures 0) := by
  simp only [idleAnalyze]
  rw [List.length_map, List.length_range, List.all_eq_true]
  constructor
  · intro hall i hi
    cases i with
    | zero => rfl
    | succ j =>
      have hj : j ∈ List.range (samples - 1) := List.mem_range.mpr (by omega)
      have hd := hall j hj
      rw [decide_eq_true_iff] at hd
      rw [getD_range_map _ _ _ _ (by omega : j + 1 < samples)] at hd
      rw [getD_range_map _ _ _ _ (by omega : 0 < samples)] at hd
      exact hd
  · intro hall j hj
    rw [List.mem_range] at hj
    rw [decide_eq_true_iff]
    rw [getD_range_map _ _ _ _ (by omega : j + 1 < samples)]
    rw [getD_range_map _ _ _ _ (by omega : 0 < samples)]
    exact hall (j + 1) (by omega)

theorem idleAnalyze_diffsBase (samples : Nat) (captures : Nat → List Nat) (i : Nat)
    (hi : i < samples) :
    (idleAnalyze ((List.range samples).map captures)).2.2.1.getD i 0
      = if i = 0 then 0 else byteDiffCount (captures 0) (captures i) := by
  simp only [idleAnalyze]
  rw [List.length_map, List.length_range]
  rw [getD_range_map _ _ _ _ hi]
  rw [getD_range_map _ _ _ _ (by omega : 0 < samples)]
  by_cases h0 : i = 0
  · simp [h0]
  · rw [if_neg h0, if_neg h0, getD_range_map _ _ _ _ hi]

theorem idleAnalyze_diffsPrev (samples : Nat) (captures : Nat → List Nat) (i : Nat)
    (hi : i < samples) :
    (idleAnalyze ((List.range samples).map captures)).2.2.2.getD i 0
      = if i = 0 then 0
        else byteDiffCount (captures (i - 1)) (captures i) := by
  simp only [idleAnalyze]
  rw [List.length_map, List.length_range]
  rw [getD_range_map _ _ _ _ hi]
  by_cases h0 : i = 0
  · simp [h0]
  · rw [if_neg h0, if_neg h0, getD_range_map _ _ _ _ hi,
      getD_range_map _ _ _ _ (by omega : i - 1 < samples)]

theorem idleAnalyze_diffLens (samples : Nat) (captures : Nat → List Nat) :
    (idleAnalyze ((List.range samples).map captures)).2.2.1.length = samples
    ∧ (idleAnalyze ((List.range samples).map captures)).2.2.2.length = samples := by
  simp [idleAnalyze]

theorem byteDiffCount_formula (a b : List Nat) :
    byteDiffCount a b =
      (Finset.filter (fun i => a.getD i 0 ≠ b.getD i 0)
          (Finset.range (Nat.min a.length b.length))).card
        + Nat.dist a.length b.length := by
  simp only [byteDiffCount]
  have h1 : ((List.range (Nat.min a.length b.length)).filter
      (fun i => decide (a.getD i 0 ≠ b.getD i 0))).length
      = (Finset.filter (fun i => a.getD i 0 ≠ b.getD i 0)
          (Finset.range (Nat.min a.length b.length))).card := by
    simp only [Finset.card, Finset.filter]
    simp only [Finset.range_val]
    rw [show Multiset.range (Nat.min a.length b.length)
        = ↑(List.range (Nat.min a.length b.length)) from rfl]
    rw [Multiset.filter_coe]
    simp
  have h2 : ((goAbs ((a.length : Int) - (b.length : Int))).toNat)
      = Nat.dist a.length b.length := by
    simp only [goAbs]
    unfold Nat.dist
    split <;> omega
  rw [h1, h2]

/-- C1: one idle round with sample count N >= 1 succeeds, declares idle iff
all N captures are byte-for-byte identical, reports the content length of
the first (stable) capture, and with N = 1 trivially declares idle. -/
theorem claim_C1_idle_round (samples : Nat) (captures : Nat → List Nat)
    (h : 1 ≤ samples) :
    ∃ allEq dB dP,
      idleSamplesTarget samples captures = .ok (allEq, (captures 0).length, dB, dP)
      ∧ (allEq = true ↔ ∀ i < samples, captures i = captures 0)
      ∧ (samples = 1 → allEq = true) := by
  refine ⟨(idleAnalyze ((List.range samples).map captures)).1,
    (idleAnalyze ((List.range samples).map captures)).2.2.1,
    (idleAnalyze ((List.range samples).map captures)).2.2.2, ?_, ?_, ?_⟩
  · rw [idleSamplesTarget_ok samples captures h]
    rw [show ((captures 0).length)
        = (idleAnalyze ((List.range samples).map captures)).2.1
      from (idleAnalyze_baseLen samples captures h).symm]
  · exact idleAnalyze_allEq samples captures h
  · intro h1
    rw [idleAnalyze_allEq samples captures h, h1]
    intro i hi
    interval_cases i
    rfl

/-- C1 witness: three identical captures of two bytes each are declared idle
with the stable length reported. -/
theorem claim_C1_idle_round_witness :
    ∃ allEq dB dP,
      idleSamplesTarget 3 (fun _ => [7, 9]) = .ok (allEq, 2, dB, dP)
      ∧ (allEq = true ↔ ∀ i < 3, (fun _ => [7, 9] : Nat → List Nat) i = [7, 9])
      ∧ (3 = 1 → allEq = true) :=
  claim_C1_idle_round 3 (fun _ => [7, 9]) (by decide)

/-- C9: the diagnostic `byteDiffCount` equals the count of differing byte
positions below the shorter length plus the absolute length difference; one
round records it per sample against sample 1 and against the immediately
preceding sample (index 0 left zero); and the idle decision is exactly
byte-for-byte equality of the captures, never a function of these counts. -/
theorem claim_C9_byte_diff_diagnostics (a b : List Nat) (samples : Nat)
    (captures : Nat → List Nat) (h : 1 ≤ samples) :
    byteDiffCount a b =
        (Finset.filter (fun i => a.getD i 0 ≠ b.getD i 0)
            (Finset.range (Nat.min a.length b.length))).card
          + Nat.dist a.length b.length
    ∧ ∃ allEq dB dP,
        idleSamplesTarget samples captures = .ok (allEq, (captures 0).length, dB, dP)
        ∧ dB.length = samples ∧ dP.length = samples
        ∧ (∀ i, 0 < i → i < samples →
              dB.getD i 0 = byteDiffCount (captures 0) (captures i)
            ∧ dP.getD i 0 = byteDiffCount (captures (i - 1)) (captures i))
        ∧ (allEq = true ↔ ∀ i < samples, captures i = captures 0) := by
  refine ⟨byteDiffCount_formula a b,
    (idleAnalyze ((List.range samples).map captures)).1,
    (idleAnalyze ((List.range samples).map captures)).2.2.1,
    (idleAnalyze ((List.range samples).map captures)).2.2.2, ?_, ?_, ?_, ?_, ?_⟩
  · rw [idleSamplesTarget_ok samples captures h]
    rw [show ((captures 0).length)
        = (idleAnalyze ((List.range samples).map captures)).2.1
      from (idleAnalyze_baseLen samples captures h).symm]
  · exact (idleAnalyze_diffLens samples captures).1
  · exact (idleAnalyze_diffLens samples captures).2
  · intro i hpos hi
    refine ⟨?_, ?_⟩
    · rw [idleAnalyze_diffsBase samples captures i hi, if_neg (by omega)]
    · rw [idleAnalyze_diffsPrev samples captures i hi, if_neg (by omega)]
  · exact idleAnalyze_allEq samples captures h

/-- C9 witness: concrete byte sequences and a concrete three-sample round. -/
theorem claim_C9_byte_diff_diagnostics_witness :
    byteDiffCount [1, 2, 3] [1, 7] =
        (Finset.filter (fun i => [1, 2, 3].getD i 0 ≠ [1, 7].getD i 0)
            (Finset.range (Nat.min 3 2))).card
          + Nat.dist 3 2
    ∧ ∃ allEq dB dP,
        idleSamplesTarget 3 (fun n => [n]) = .ok (allEq, 1, dB, dP)
        ∧ dB.length = 3 ∧ dP.length = 3
        ∧ (∀ i, 0 < i → i < 3 →
              dB.getD i 0 = byteDiffCount [0] [i]
            ∧ dP.getD i 0 = byteDiffCount [i - 1] [i])
        ∧ (allEq = true ↔ ∀ i < 3, (fun n => [n] : Nat → List Nat) i = [0]) :=
  claim_C9_byte_diff_diagnostics [1, 2, 3] [1, 7] 3 (fun n => [n]) (by decide)

/-- Outcome of one `idleSamplesTarget` call as seen by `waitForTargetIdle`:
cancellation, a capture error (any non-cancellation error), or a completed
round with its all-equal flag and base length. -/
inductive IdleRoundResult where
  | canceled
  | captureError
  | roundDone (allEqual : Bool) (baseLen : Nat)
deriving DecidableEq, Repr

/-- Errors `waitForTargetIdle` can return: context cancellation or the
permanent target-no-longer-exists error. -/
inductive WaitError where
  | canceled
  | targetGone
deriving DecidableEq, Repr

/-- Inputs consumed by one iteration of the `waitForTargetIdle` loop: the
context state at the top of the loop, the sampling-round outcome, whether
`tmuxTargetExists` still finds the target after a capture error, and whether
the 200ms backoff sleep is interrupted by cancellation. -/
structure WaitIterInput where
  ctxDone : Bool
  round : IdleRoundResult
  targetExists : Bool
  backoffCanceled : Bool
deriving DecidableEq, Repr

/-- One iteration of the Go `waitForTargetIdle` loop body: `some r` means the
function returns `r`; `none` means the loop continues with a fresh round. -/
def waitForTargetIdleStep (inp : WaitIterInput) : Option (Except WaitError Nat) :=
  if inp.ctxDone then some (.error .canceled)
  else
    match inp.round with
    | .canceled => some (.error .canceled)
    | .captureError =>
      if !inp.targetExists then some (.error .targetGone)
      else if inp.backoffCanceled then some (.error .canceled)
      else none
    | .roundDone allEqual baseLen =>
      if allEqual then some (.ok baseLen) else none

/-- Embeds the Go `waitForTargetIdle` loop over a finite trace of iteration
inputs: the first iteration that exits determines the result; `none` means
the trace ended with the loop still running. -/
def waitForTargetIdle : List WaitIterInput → Option (Except WaitError Nat)
  | [] => none
  | inp :: rest =>
    match waitForTargetIdleStep inp with
    | some r => some r
    | none => waitForTargetIdle rest

/-- C8: a capture failure in an idle-wait round is fatal iff the target no
longer exists: with the target absent the loop returns the permanent
target-gone error without retrying; with the target still present (and no
cancellation) the loop continues with a fresh round, and a trace whose
capture errors all happen with the target present never ends in an error. -/
theorem claim_C8_capture_failure_handling (inp : WaitIterInput)
    (rest : List WaitIterInput) :
    (inp.round = .captureError → inp.ctxDone = false → inp.targetExists = false →
      waitForTargetIdle (inp :: rest) = some (.error .targetGone))
    ∧ (inp.round = .captureError → inp.ctxDone = false → inp.targetExists = true →
        inp.backoffCanceled = false →
      waitForTargetIdle (inp :: rest) = waitForTargetIdle rest)
    ∧ ∀ trace : List WaitIterInput,
        (∀ j ∈ trace, j.ctxDone = false ∧ j.backoffCanceled = false
          ∧ j.round ≠ .canceled
          ∧ (j.round = .captureError → j.targetExists = true)) →
        ∀ e : WaitError, waitForTargetIdle trace ≠ some (.error e) := by
  refine ⟨?_, ?_, ?_⟩
  · intro hr hc ht
    simp [waitForTargetIdle, waitForTargetIdleStep, hr, hc, ht]
  · intro hr hc ht hb
    simp [waitForTargetIdle, waitForTargetIdleStep, hr, hc, ht, hb]
  · intro trace htrace e
    induction trace with
    | nil => simp [waitForTargetIdle]
    | cons j rest ih =>
      have hj := htrace j (by simp)
      have hrest : ∀ k ∈ rest, k.ctxDone = false ∧ k.backoffCanceled = false
          ∧ k.round ≠ .canceled ∧ (k.round = .captureError → k.targetExists = true) := by
        intro k hk
        exact htrace k (by simp [hk])
      rw [waitForTargetIdle]
      cases hround : j.round with
      | canceled => exact absurd hround hj.2.2.1
      | captureError =>
        have ht := hj.2.2.2 hround
        simp [waitForTargetIdleStep, hj.1, hj.2.1, hround, ht]
        exact ih hrest
      | roundDone allEq baseLen =>
        cases allEq with
        | false =>
          simp [waitForTargetIdleStep, hj.1, hround]
          exact ih hrest
        | true =>
          simp [waitForTargetIdleStep, hj.1, hround]

/-- C8 witness: a concrete absent-target capture error is fatal, a concrete
present-target capture error retries, and a concrete clean trace returns no
error. -/
theorem claim_C8_capture_failure_handling_witness :
    waitForTargetIdle [⟨false, .captureError, false, false⟩] = some (.error .targetGone)
    ∧ waitForTargetIdle
        [⟨false, .captureError, true, false⟩, ⟨false, .roundDone true 4, true, false⟩]
      = waitForTargetIdle [⟨false, .roundDone true 4, true, false⟩] := by
  have h1 := claim_C8_capture_failure_handling ⟨false, .captureError, false, false⟩ []
  have h2 := claim_C8_capture_failure_handling ⟨false, .captureError, true, false⟩
    [⟨false, .roundDone true 4, true, false⟩]
  exact ⟨h1.1 rfl rfl rfl, h2.2.1 rfl rfl rfl rfl⟩

/-- Models Go `strings.TrimSpace`: strip leading and trailing whitespace
characters (stated over the character list so it evaluates in the kernel). -/
def trimChars (s : String) : String :=
  ⟨(((s.data.dropWhile Char.isWhitespace).reverse).dropWhile Char.isWhitespace).reverse⟩

/-- One parsed `list-panes` row for target resolution: the tab-separated
fields `pane_id`, `pane_active`, and the injected tag, as raw strings. -/
structure PaneRow where
  paneID : String
  active : String
  injected : String
deriving DecidableEq, Repr

/-- Embeds the row loop of Go `pickPreferredSendPane` with its mutable
`firstNonInjected` accumulator. -/
def pickPreferredSendPaneLoop : List PaneRow → String → String
  | [], firstNonInjected => firstNonInjected
  | row :: rest, firstNonInjected =>
    let paneID := trimChars row.paneID
    let active := trimChars row.active
    let injected := trimChars row.injected = "1"
    if paneID = "" ∨ injected then pickPreferredSendPaneLoop rest firstNonInjected
    else if active = "1" then paneID
    else if firstNonInjected = "" then pickPreferredSendPaneLoop rest paneID
    else pickPreferredSendPaneLoop rest firstNonInjected

/-- Embeds Go `pickPreferredSendPane` (rows already split into fields). -/
def pickPreferredSendPane (rows : List PaneRow) : String :=
  pickPreferredSendPaneLoop rows ""

/-- Embeds Go `tmuxPreferredSendPaneForSession` after the `list-panes` call:
empty result from the picker becomes the no-eligible-pane error. -/
def tmuxPreferredSendPaneForSession (rows : List PaneRow) : Except String String :=
  let pane := pickPreferredSendPane rows
  if pane ≠ "" then .ok pane else .error "no non-injected pane found in session"

/-- A row is eligible when its trimmed pane id is non-blank and it is not
tagged injected. -/
def eligibleRow (row : PaneRow) : Bool :=
  decide (trimChars row.paneID ≠ "") && decide (trimChars row.injected ≠ "1")

/-- A row is an active eligible row when it is eligible and the multiplexer
marks it active. -/
def activeEligibleRow (row : PaneRow) : Bool :=
  eligibleRow row && decide (trimChars row.active = "1")

theorem pickLoop_spec (rows : List PaneRow) :
    ∀ fni : String,
    pickPreferredSendPaneLoop rows fni =
      match rows.find? activeEligibleRow with
      | some row => trimChars row.paneID
      | none =>
        if fni = "" then
          match rows.find? eligibleRow with
          | some row => trimChars row.paneID
          | none => ""
        else fni := by
  induction rows with
  | nil =>
    intro fni
    simp only [pickPreferredSendPaneLoop, List.find?_nil]
    split <;> simp_all
  | cons row rest ih =>
    intro fni
    by_cases hskip : trimChars row.paneID = "" ∨ trimChars row.injected = "1"
    · have hel : eligibleRow row = false := by
        simp only [eligibleRow, Bool.and_eq_false_iff, decide_eq_false_iff_not, not_not]
        tauto
      have hae : activeEligibleRow row = false := by
        simp [activeEligibleRow, hel]
      rw [List.find?_cons_of_neg _ (by simp [hae]),
        List.find?_cons_of_neg _ (by simp [hel])]
      rw [show pickPreferredSendPaneLoop (row :: rest) fni
          = pickPreferredSendPaneLoop rest fni by
        simp only [pickPreferredSendPaneLoop]
        rw [if_pos hskip]]
      exact ih fni
    · push_neg at hskip
      have hel : eligibleRow row = true := by
        simp [eligibleRow, hskip.1, hskip.2]
      by_cases hact : trimChars row.active = "1"
      · have hae : activeEligibleRow row = true := by
          simp [activeEligibleRow, hel, hact]
        rw [List.find?_cons_of_pos _ hae]
        simp only [pickPreferredSendPaneLoop]
        rw [if_neg (by tauto), if_pos hact]
      · have hae : activeEligibleRow row = false := by
          simp [activeEligibleRow, hact]
        rw [List.find?_cons_of_neg _ (by simp [hae]),
          List.find?_cons_of_pos _ hel]
        rw [show pickPreferredSendPaneLoop (row :: rest) fni
            = if fni = "" then pickPreferredSendPaneLoop rest (trimChars row.paneID)
              else pickPreferredSendPaneLoop rest fni by
          simp only [pickPreferredSendPaneLoop]
          rw [if_neg (by tauto), if_neg hact]]
        by_cases hfni : fni = ""
        · rw [if_pos hfni, if_pos hfni, ih (trimChars row.paneID)]
          split
          · rfl
          · rw [if_neg hskip.1]
        · rw [if_neg hfni, if_neg hfni, ih fni]
          split
          · rfl
          · rw [if_neg hfni]

/-- C4: the resolver returns the first listed pane that is active and not
injected; failing that, the first non-injected pane in listing order;
failing that, the no-eligible-pane error. -/
theorem claim_C4_preferred_pane (rows : List PaneRow) :
    tmuxPreferredSendPaneForSession rows =
      match rows.find? activeEligibleRow with
      | some row => .ok (trimChars row.paneID)
      | none =>
        match rows.find? eligibleRow with
        | some row => .ok (trimChars row.paneID)
        | none => .error "no non-injected pane found in session" := by
  rw [tmuxPreferredSendPaneForSession]
  simp only [pickPreferredSendPane]
  rw [pickLoop_spec rows ""]
  cases hfa : rows.find? activeEligibleRow with
  | some row =>
    have hrow := List.find?_some hfa
    have : trimChars row.paneID ≠ "" := by
      simp only [activeEligibleRow, eligibleRow, Bool.and_eq_true,
        decide_eq_true_iff] at hrow
      exact hrow.1.1
    simp [this]
  | none =>
    cases hfe : rows.find? eligibleRow with
    | some row =>
      have hrow := List.find?_some hfe
      have : trimChars row.paneID ≠ "" := by
        simp only [eligibleRow, Bool.and_eq_true, decide_eq_true_iff] at hrow
        exact hrow.1
      simp [this]
    | none => simp

/-- One parsed `list-panes` row for the restart scan: the tab-separated
fields `pane_id`, the injected tag, and `pane_current_command`. -/
structure BirdPaneRow where
  paneID : String
  injectedFlag : String
  currentCommand : String
deriving DecidableEq, Repr

/-- Embeds the row loop of Go `parseBirdPaneIDs` with its `seen` set and
`panes` accumulator. -/
def parseBirdLoop (commandName : String) :
    List BirdPaneRow → List String → List String → List String
  | [], _seen, panes => panes
  | row :: rest, seen, panes =>
    let paneID := trimChars row.paneID
    let injectedFlag := trimChars row.injectedFlag
    let currentCommand := trimChars row.currentCommand
    if paneID = "" then parseBirdLoop commandName rest seen panes
    else if injectedFlag ≠ "1" ∧ currentCommand ≠ commandName
        ∧ currentCommand ≠ "typing-bird" then
      parseBirdLoop commandName rest seen panes
    else if paneID ∈ seen then parseBirdLoop commandName rest seen panes
    else parseBirdLoop commandName rest (seen ++ [paneID]) (panes ++ [paneID])

/-- Embeds Go `parseBirdPaneIDs` (rows already split into fields). -/
def parseBirdPaneIDs (rows : List BirdPaneRow) (commandName : String) : List String :=
  parseBirdLoop commandName rows [] []

/-- A restart-scan row is selected when its pane id is non-blank and its
injected tag equals "1" or its current command equals the executable base
name or the well-known name "typing-bird". -/
def birdRowKept (commandName : String) (row : BirdPaneRow) : Bool :=
  decide (trimChars row.paneID ≠ "")
    && (decide (trimChars row.injectedFlag = "1")
        || decide (trimChars row.currentCommand = commandName)
        || decide (trimChars row.currentCommand = "typing-bird"))

/-- The selected pane ids of a scan, in listing order, duplicates kept. -/
def birdIDs (rows : List BirdPaneRow) (commandName : String) : List String :=
  (rows.filter (birdRowKept commandName)).map (fun row => trimChars row.paneID)

/-- First-occurrence duplicate removal, stated structurally. -/
def dedupFirst : List String → List String
  | [] => []
  | a :: l => a :: dedupFirst (l.filter (fun b => decide (b ≠ a)))
termination_by l => l.length
decreasing_by
  simp only [List.length_cons]
  exact Nat.lt_succ_of_le (List.length_filter_le _ l)

theorem dedupFirst_cons (a : String) (l : List String) :
    dedupFirst (a :: l) = a :: dedupFirst (l.filter (fun b => decide (b ≠ a))) := by
  rw [dedupFirst.eq_def]

theorem parseBirdLoop_spec (commandName : String) (rows : List BirdPaneRow) :
    ∀ (seen panes : List String),
    parseBirdLoop commandName rows seen panes
      = panes ++ dedupFirst
          ((birdIDs rows commandName).filter (fun p => decide (p ∉ seen))) := by
  induction rows with
  | nil =>
    intro seen panes
    simp [parseBirdLoop, birdIDs, dedupFirst]
  | cons row rest ih =>
    intro seen panes
    by_cases hblank : trimChars row.paneID = ""
    · have hkept : birdRowKept commandName row = false := by
        simp [birdRowKept, hblank]
      rw [show parseBirdLoop commandName (row :: rest) seen panes
          = parseBirdLoop commandName rest seen panes by
        simp only [parseBirdLoop]
        rw [if_pos hblank]]
      rw [ih seen panes]
      simp [birdIDs, List.filter_cons, hkept]
    · by_cases hmiss : trimChars row.injectedFlag ≠ "1"
          ∧ trimChars row.currentCommand ≠ commandName
          ∧ trimChars row.currentCommand ≠ "typing-bird"
      · have hkept : birdRowKept commandName row = false := by
          simp only [birdRowKept, Bool.and_eq_false_iff, Bool.or_eq_false_iff,
            decide_eq_false_iff_not, not_not]
          right
          exact ⟨⟨hmiss.1, hmiss.2.1⟩, hmiss.2.2⟩
        rw [show parseBirdLoop commandName (row :: rest) seen panes
            = parseBirdLoop commandName rest seen panes by
          simp only [parseBirdLoop]
          rw [if_neg hblank, if_pos hmiss]]
        rw [ih seen panes]
        simp [birdIDs, List.filter_cons, hkept]
      · have hkept : birdRowKept commandName row = true := by
          push_neg at hmiss
          simp only [birdRowKept, Bool.and_eq_true, Bool.or_eq_true,
            decide_eq_true_iff]
          refine ⟨hblank, ?_⟩
          by_cases h1 : trimChars row.injectedFlag = "1"
          · tauto
          · tauto
        have hids : birdIDs (row :: rest) commandName
            = trimChars row.paneID :: birdIDs rest commandName := by
          simp [birdIDs, List.filter_cons, hkept]
        by_cases hseen : trimChars row.paneID ∈ seen
        · rw [show parseBirdLoop commandName (row :: rest) seen panes
              = parseBirdLoop commandName rest seen panes by
            simp only [parseBirdLoop]
            rw [if_neg hblank, if_neg hmiss, if_pos hseen]]
          rw [ih seen panes, hids]
          rw [List.filter_cons]
          simp [hseen]
        · rw [show parseBirdLoop commandName (row :: rest) seen panes
              = parseBirdLoop commandName rest (seen ++ [trimChars row.paneID])
                  (panes ++ [trimChars row.paneID]) by
            simp only [parseBirdLoop]
            rw [if_neg hblank, if_neg hmiss, if_neg hseen]]
          rw [ih (seen ++ [trimChars row.paneID]) (panes ++ [trimChars row.paneID])]
          rw [hids, List.filter_cons]
          rw [if_pos (by simp [hseen])]
          rw [dedupFirst_cons]
          have hff : (birdIDs rest commandName).filter
                (fun p => decide (p ∉ seen ++ [trimChars row.paneID]))
              = ((birdIDs rest commandName).filter (fun p => decide (p ∉ seen))).filter
                  (fun p => decide (p ≠ trimChars row.paneID)) := by
            rw [List.filter_filter]
            apply List.filter_congr
            intro q _
            by_cases h1 : q ∈ seen <;> by_cases h2 : q = trimChars row.paneID <;>
              simp [h1, h2]
          rw [← hff]
          simp

/-- C5: the restart scan selects exactly the rows whose injected tag is "1"
or whose current command is the executable base name or "typing-bird"
(blank-id rows aside), keeping listing order and dropping later duplicates
of a pane id; concrete instance from the spec included. -/
theorem claim_C5_restart_scan (rows : List BirdPaneRow) (commandName : String) :
    parseBirdPaneIDs rows commandName = dedupFirst (birdIDs rows commandName)
    ∧ parseBirdPaneIDs
        [⟨"%1", "1", "bash"⟩, ⟨"%2", "", "tool-name"⟩, ⟨"%3", "", "other-command"⟩]
        "tool-name" = ["%1", "%2"] := by
  constructor
  · rw [parseBirdPaneIDs, parseBirdLoop_spec]
    simp
  · decide

/-- The single-quote character. -/
def squote : Char := Char.ofNat 39

/-- The backslash character. -/
def bslash : Char := '\\'

/-- Embeds Go `shellQuoteSingle`: wrap in single quotes, replacing each
embedded single quote by the close-quote, escaped-quote, reopen-quote
sequence. -/
def shellQuoteSingle (value : List Char) : List Char :=
  if value = [] then [squote, squote]
  else
    squote ::
      (value.flatMap (fun r => if r = squote then [squote, bslash, squote, squote] else [r]))
      ++ [squote]

/-- Modelled from the spec: a reference POSIX-shell unquoting function for a
single word (the repository has no unquoter; the spec appeals to "interpreted
by a POSIX shell"). Outside single quotes a backslash preserves the literal
value of the next character and a single quote opens quoted mode; inside
single quotes every character up to the closing quote is literal. Returns
`none` for a dangling backslash or an unclosed quote. -/
inductive UnqMode where
  | plain
  | quoted
  | escaped
deriving DecidableEq, Repr

def posixUnquote : List Char → UnqMode → Option (List Char)
  | [], .plain => some []
  | [], .quoted => none
  | [], .escaped => none
  | c :: rest, .plain =>
    if c = squote then posixUnquote rest .quoted
    else if c = bslash then posixUnquote rest .escaped
    else (posixUnquote rest .plain).map (fun t => c :: t)
  | c :: rest, .quoted =>
    if c = squote then posixUnquote rest .plain
    else (posixUnquote rest .quoted).map (fun t => c :: t)
  | c :: rest, .escaped => (posixUnquote rest .plain).map (fun t => c :: t)

theorem posixUnquote_plain_cons (c : Char) (rest : List Char) :
    posixUnquote (c :: rest) .plain =
      if c = squote then posixUnquote rest .quoted
      else if c = bslash then posixUnquote rest .escaped
      else (posixUnquote rest .plain).map (fun t => c :: t) := rfl

theorem posixUnquote_quoted_cons (c : Char) (rest : List Char) :
    posixUnquote (c :: rest) .quoted =
      if c = squote then posixUnquote rest .plain
      else (posixUnquote rest .quoted).map (fun t => c :: t) := rfl

theorem posixUnquote_escaped_cons (c : Char) (rest : List Char) :
    posixUnquote (c :: rest) .escaped
      = (posixUnquote rest .plain).map (fun t => c :: t) := rfl

theorem posixUnquote_quoted_body (v : List Char) (k : List Char)
    (hk : posixUnquote k .plain = some []) :
    posixUnquote
        ((v.flatMap (fun r => if r = squote then [squote, bslash, squote, squote] else [r]))
          ++ squote :: k) .quoted
      = some v := by
  induction v with
  | nil =>
    simp only [List.flatMap_nil, List.nil_append]
    rw [posixUnquote_quoted_cons, if_pos rfl, hk]
  | cons c v ih =>
    by_cases hc : c = squote
    · subst hc
      simp only [List.flatMap_cons, eq_self_iff_true, if_true, List.append_assoc,
        List.cons_append, List.nil_append]
      rw [posixUnquote_quoted_cons, if_pos rfl]
      rw [posixUnquote_plain_cons, if_neg (by decide : ¬(bslash = squote)), if_pos rfl]
      rw [posixUnquote_escaped_cons]
      rw [posixUnquote_plain_cons, if_pos rfl]
      rw [ih]
      rfl
    · simp only [List.flatMap_cons, if_neg hc, List.cons_append, List.nil_append]
      rw [posixUnquote_quoted_cons, if_neg hc]
      rw [ih]
      rfl

/-- C6: quoting any string and interpreting the result under POSIX
single-quote semantics reproduces the original string exactly, including for
values with embedded single quotes such as a-quote-b. -/
theorem claim_C6_shell_quote_round_trip (v : List Char) :
    posixUnquote (shellQuoteSingle v) .plain = some v
    ∧ posixUnquote (shellQuoteSingle ['a', squote, 'b']) .plain
      = some ['a', squote, 'b'] := by
  constructor
  · by_cases hv : v = []
    · subst hv
      rw [shellQuoteSingle, if_pos rfl]
      rfl
    · rw [shellQuoteSingle, if_neg hv]
      rw [show squote ::
            (v.flatMap (fun r => if r = squote then [squote, bslash, squote, squote] else [r]))
            ++ [squote]
          = squote ::
            ((v.flatMap (fun r => if r = squote then [squote, bslash, squote, squote] else [r]))
              ++ squote :: []) from by simp]
      rw [posixUnquote_plain_cons, if_pos rfl]
      exact posixUnquote_quoted_body v [] rfl
  · decide

/-- Embeds the startup substitution in Go `run`: zero caller-supplied
messages become the single empty-string message. -/
def normalizeMessages (messages : List String) : List String :=
  if messages = [] then [""] else messages

/-- Embeds the dispatch-loop index recurrence of Go `run`: index 0 at start,
then after each successful send advance by one modulo the list length. -/
def dispatchIndex (messages : List String) : Nat → Nat
  | 0 => 0
  | n + 1 => (dispatchIndex messages n + 1) % messages.length

/-- C7: over the normalized message list the dispatch index after n sends is
n modulo the list length, hence always in range, and the normalized list is
never empty, so the modulo divisor is never zero. -/
theorem claim_C7_message_index_invariant (messages : List String) (n : Nat) :
    0 < (normalizeMessages messages).length
    ∧ dispatchIndex (normalizeMessages messages) n = n % (normalizeMessages messages).length
    ∧ dispatchIndex (normalizeMessages messages) n < (normalizeMessages messages).length := by
  have hpos : 0 < (normalizeMessages messages).length := by
    rw [normalizeMessages]
    split
    · simp
    · rename_i hne
      cases messages with
      | nil => exact absurd rfl hne
      | cons m ms => simp
  have hmod : ∀ m : Nat, dispatchIndex (normalizeMessages messages) m
      = m % (normalizeMessages messages).length := by
    intro m
    induction m with
    | zero => simp [dispatchIndex, Nat.zero_mod]
    | succ k ihk =>
      rw [dispatchIndex, ihk, Nat.mod_add_mod]
  exact ⟨hpos, hmod n, (hmod n).symm ▸ Nat.mod_lt n hpos⟩

/-- Embeds Go `buildChildArgs`: the child command line of an injected
instance, with timeout and delay already rendered as duration strings. -/
def buildChildArgs (timeout delay : String) (session : String) (messages : List String)
    (targetPane : String) (verbose : Bool) : List String :=
  let args := ["-t", timeout, "-d", delay]
  let args := if verbose then args ++ ["--verbose"] else args
  let args := if trimChars targetPane ≠ "" then args ++ ["--target-pane", targetPane] else args
  args ++ [session] ++ messages

/-- The flag region of the child argument list: everything before the
positional session argument (Go flag parsing stops at the first positional
argument, so only this region is parsed as flags). -/
def childFlagRegion (timeout delay : String) (targetPane : String)
    (verbose : Bool) : List String :=
  ["-t", timeout, "-d", delay]
    ++ (if verbose then ["--verbose"] else [])
    ++ (if trimChars targetPane ≠ "" then ["--target-pane", targetPane] else [])

/-- C10: the child argument list is exactly the timeout and delay flags, the
verbose flag iff set, the target-pane flag iff the pane is non-blank, then
the session and all messages in order; and (for flag values that are not
themselves the injection tokens) the flag region never contains -i or
--inject, so an injected child always runs in plain dispatch mode. -/
theorem claim_C10_child_args (timeout delay session targetPane : String)
    (messages : List String) (verbose : Bool)
    (ht : timeout ≠ "-i" ∧ timeout ≠ "--inject")
    (hd : delay ≠ "-i" ∧ delay ≠ "--inject")
    (hp : targetPane ≠ "-i" ∧ targetPane ≠ "--inject") :
    buildChildArgs timeout delay session messages targetPane verbose
      = childFlagRegion timeout delay targetPane verbose ++ [session] ++ messages
    ∧ "-i" ∉ childFlagRegion timeout delay targetPane verbose
    ∧ "--inject" ∉ childFlagRegion timeout delay targetPane verbose := by
  refine ⟨?_, ?_, ?_⟩
  · rw [buildChildArgs, childFlagRegion]
    by_cases hv : verbose <;> by_cases htp : trimChars targetPane ≠ "" <;>
      simp [hv, htp]
  · by_cases hv : verbose <;> by_cases htp : trimChars targetPane ≠ "" <;>
      simp [childFlagRegion, hv, htp, Ne.symm ht.1, Ne.symm hd.1, Ne.symm hp.1]
  · by_cases hv : verbose <;> by_cases htp : trimChars targetPane ≠ "" <;>
      simp [childFlagRegion, hv, htp, Ne.symm ht.2, Ne.symm hd.2, Ne.symm hp.2]

/-- C10 witness: a concrete configuration. -/
theorem claim_C10_child_args_witness :
    buildChildArgs "30s" "15ms" "work" ["m1", "m2"] "%3" true
      = childFlagRegion "30s" "15ms" "%3" true ++ ["work"] ++ ["m1", "m2"]
    ∧ "-i" ∉ childFlagRegion "30s" "15ms" "%3" true
    ∧ "--inject" ∉ childFlagRegion "30s" "15ms" "%3" true :=
  claim_C10_child_args "30s" "15ms" "work" "%3" ["m1", "m2"] true
    ⟨by decide, by decide⟩ ⟨by decide, by decide⟩ ⟨by decide, by decide⟩

end TypingBird
